import Mathlib

attribute [local semireducible] Rat.mul Rat.add Rat.sub Rat.inv

/-!
A shallow embedding of `src/klippy/chelper/itersolve.c` (the iterative step
solver of the klipper motion core).  C `double` values are modelled as exact
rationals; the two unbounded C loops (`for (;;)` in `itersolve_find_step` and
in `itersolve_gen_steps`) are modelled with an explicit fuel parameter, the
run returning `none` when the fuel is exhausted.  The external step queue
(`stepcompress.c`, not part of the sources) is modelled from the spec as an
append session recording ticks and direction changes, with an injectable
failure schedule for the queue operations.
-/

/-- C `struct timepos`: a transient (time, position) sample. -/
structure timepos where
  time : ℚ
  position : ℚ
  deriving DecidableEq, Repr

/-- C `struct move` as used by `itersolve.c`: only the absolute start time and
the duration are read by the solver; the trajectory coefficients are opaque
(they live inside the position oracle). -/
structure move where
  print_time : ℚ
  move_t : ℚ
  deriving DecidableEq, Repr

/-- Modelled from the spec: the read-only queries of the external stepcompress
queue used by the generator (`stepcompress_get_mcu_freq`,
`stepcompress_get_step_dir`). -/
structure stepcompress where
  mcu_freq : ℚ
  step_dir : Bool
  deriving DecidableEq, Repr

/-- C `struct stepper_kinematics` (fields read or written by
`itersolve_gen_steps`).  The position oracle `calc_position_cb` is a pure
function of the move and the time, per the spec's oracle contract; the
optional post-generation hook is modelled as a presence flag (the generated
result separately records whether the hook was invoked). -/
structure stepper_kinematics where
  sc : stepcompress
  step_dist : ℚ
  commanded_pos : ℚ
  calc_position_cb : move → ℚ → ℚ
  post_cb : Bool

/-- Modelled from the spec: the state of a step-queue append session — the
ticks appended so far (most recent first), the direction changes signalled so
far (most recent first), and the number of queue operations performed. -/
structure QueueAppend where
  ticksRev : List ℚ
  dirsRev : List Bool
  nOps : ℕ
  deriving DecidableEq, Repr

/-- Modelled from the spec: `queue_append_start` opens an empty append
session anchored at the move's start time. -/
def queue_append_start (_sc : stepcompress) (_print_time _precision : ℚ) : QueueAppend :=
  ⟨[], [], 0⟩

/-- Modelled from the spec: `queue_append` appends one step at an absolute
tick value and can fail with a non-zero status (resource exhaustion); the
failure schedule `sched` gives the status returned by the n-th queue
operation of the call. -/
def queue_append (sched : ℕ → ℤ) (qa : QueueAppend) (tick : ℚ) : Except ℤ QueueAppend :=
  let e := sched qa.nOps
  if e = 0 then .ok ⟨tick :: qa.ticksRev, qa.dirsRev, qa.nOps + 1⟩ else .error e

/-- Modelled from the spec: `queue_append_set_next_step_dir` tags the next
appended step with a direction change and can fail like `queue_append`. -/
def queue_append_set_next_step_dir (sched : ℕ → ℤ) (qa : QueueAppend) (dir : Bool) :
    Except ℤ QueueAppend :=
  let e := sched qa.nOps
  if e = 0 then .ok ⟨qa.ticksRev, dir :: qa.dirsRev, qa.nOps + 1⟩ else .error e

/-- C `signbit` on our exact-rational doubles: true iff the value is
negative. -/
def signbit (q : ℚ) : Bool := decide (q < 0)

/-- The `for (;;)` loop of `itersolve_find_step` (false-position iteration).
`low`/`high` carry target-translated positions, `best` carries the best guess
with its untranslated position, `calls` counts oracle invocations. -/
def itersolve_find_step_loop (f : ℚ → ℚ) (target : ℚ) (high_sign : Bool) :
    ℕ → timepos → timepos → timepos → ℕ → Option (timepos × ℕ)
  | 0, _, _, _, _ => none
  | fuel + 1, low, high, best, calls =>
    let guess_time := (low.time * high.position - high.time * low.position)
                        / (high.position - low.position)
    if |guess_time - best.time| ≤ 1 / 1000000000 then some (best, calls)
    else
      let best_position := f guess_time
      let guess_position := best_position - target
      if signbit guess_position = high_sign then
        itersolve_find_step_loop f target high_sign fuel
          low ⟨guess_time, guess_position⟩ ⟨guess_time, best_position⟩ (calls + 1)
      else
        itersolve_find_step_loop f target high_sign fuel
          ⟨guess_time, guess_position⟩ high ⟨guess_time, best_position⟩ (calls + 1)

/-- C `itersolve_find_step`: find the time at which the oracle `f` crosses
`target` inside the bracket `[low, high]`, also returning the number of
oracle calls performed. -/
def itersolve_find_step (f : ℚ → ℚ) (fuel : ℕ) (low high : timepos) (target : ℚ) :
    Option (timepos × ℕ) :=
  let lowT : timepos := ⟨low.time, low.position - target⟩
  let highT : timepos := ⟨high.time, high.position - target⟩
  if highT.position = 0 then
    some (high, 0)
  else
    let high_sign := signbit highT.position
    if high_sign = signbit lowT.position then
      some (⟨lowT.time, target⟩, 0)
    else
      itersolve_find_step_loop f target high_sign fuel lowT highT high 0

/-- The loop-carried state of `itersolve_gen_steps`. -/
structure LoopState where
  last : timepos
  low : timepos
  high : timepos
  seek_time_delta : ℚ
  sdir : Bool
  qa : QueueAppend

/-- The outcome of a generation call: the returned status, the (possibly
updated) stepper state, the final append-session state, whether
`queue_append_finish` was invoked, and whether the post-generation hook was
invoked. -/
structure GenResult where
  status : ℤ
  sk : stepper_kinematics
  qa : QueueAppend
  finished : Bool
  postInvoked : Bool

/-- The body of the `seek_new_high_range` block of `itersolve_gen_steps`
(after its end-of-move check): slide `low` to the old `high`, move
`high.time` to `last.time + seek_time_delta` capped at the move end, double
`seek_time_delta`, and resample the oracle at the new `high.time`. -/
def seek_new_high_range_body (f : ℚ → ℚ) (move_t : ℚ) (st : LoopState) : LoopState :=
  let ht := st.last.time + st.seek_time_delta
  let ht := if ht > move_t then move_t else ht
  { st with low := st.high, high := ⟨ht, f ht⟩,
            seek_time_delta := st.seek_time_delta + st.seek_time_delta }

/-- The `seek_new_high_range` label of `itersolve_gen_steps`: if `high.time`
reached the move end the loop breaks and the call completes (the session is
finalized, `commanded_pos` is updated and the post hook runs); otherwise the
search bracket is expanded and the loop continues. -/
def seek_new_high_range (sk : stepper_kinematics) (f : ℚ → ℚ) (move_t : ℚ)
    (s : LoopState) : GenResult ⊕ LoopState :=
  if s.high.time ≥ move_t then
    .inl { status := 0, sk := { sk with commanded_pos := s.last.position },
           qa := s.qa, finished := true, postInvoked := sk.post_cb }
  else
    .inr (seek_new_high_range_body f move_t s)

/-- The step-emission tail of an `itersolve_gen_steps` iteration: find the
crossing time of the next step target, append it to the queue (propagating a
failure), advance the loop state, and re-enter bracket expansion when the
high range is no longer valid. -/
def gen_step_emit (sk : stepper_kinematics) (m : move) (sched : ℕ → ℤ) (f : ℚ → ℚ)
    (half_step mcu_freq : ℚ) (ffuel : ℕ) (st : LoopState) (sdir : Bool)
    (qa : QueueAppend) : Option (GenResult ⊕ LoopState) :=
  let target := st.last.position + (if sdir then half_step else -half_step)
  match itersolve_find_step f ffuel st.low st.high target with
  | none => none
  | some (next, _) =>
    match queue_append sched qa (next.time * mcu_freq) with
    | .error ret =>
      some (.inl { status := ret, sk := sk, qa := qa, finished := false, postInvoked := false })
    | .ok qa' =>
      let d := next.time - st.last.time
      let d := if d < 1 / 1000000000 then 1 / 1000000000 else d
      let st' : LoopState :=
        { last := ⟨next.time, target + (if sdir then half_step else -half_step)⟩,
          low := next, high := st.high, seek_time_delta := d, sdir := sdir, qa := qa' }
      if st'.last.time ≥ st'.high.time then some (seek_new_high_range sk f m.move_t st')
      else some (.inr st')

/-- One iteration of the `for (;;)` loop of `itersolve_gen_steps`.  Returns
`some (.inl r)` when the call returns (success or queue failure), and
`some (.inr st')` when the loop continues with a new state; `none` means the
false-position sub-loop ran out of fuel. -/
def gen_step_body (sk : stepper_kinematics) (m : move) (sched : ℕ → ℤ) (f : ℚ → ℚ)
    (half_step mcu_freq : ℚ) (ffuel : ℕ) (st : LoopState) :
    Option (GenResult ⊕ LoopState) :=
  let dist := st.high.position - st.last.position
  if |dist| < half_step then some (seek_new_high_range sk f m.move_t st)
  else
    let next_sdir := decide (dist > 0)
    if next_sdir ≠ st.sdir then
      if |dist| < half_step + 1 / 1000000000 then some (seek_new_high_range sk f m.move_t st)
      else if st.last.time ≥ st.low.time ∧ st.high.time > st.last.time then
        let ht := (st.last.time + st.high.time) * (1 / 2)
        some (.inr { st with high := ⟨ht, f ht⟩ })
      else
        match queue_append_set_next_step_dir sched st.qa next_sdir with
        | .error ret =>
          some (.inl { status := ret, sk := sk, qa := st.qa, finished := false,
                       postInvoked := false })
        | .ok qa' => gen_step_emit sk m sched f half_step mcu_freq ffuel st next_sdir qa'
    else gen_step_emit sk m sched f half_step mcu_freq ffuel st st.sdir st.qa

/-- The `for (;;)` loop of `itersolve_gen_steps`, with fuel bounding the
number of iterations. -/
def gen_steps_loop (sk : stepper_kinematics) (m : move) (sched : ℕ → ℤ) (f : ℚ → ℚ)
    (half_step mcu_freq : ℚ) (ffuel : ℕ) : ℕ → LoopState → Option GenResult
  | 0, _ => none
  | fuel + 1, st =>
    match gen_step_body sk m sched f half_step mcu_freq ffuel st with
    | none => none
    | some (.inl r) => some r
    | some (.inr st') => gen_steps_loop sk m sched f half_step mcu_freq ffuel fuel st'

/-- C `itersolve_gen_steps`: generate the step times for stepper `sk` during
move `m`.  `sched` is the failure schedule of the queue operations, `fuel`
bounds the generator loop, `ffuel` bounds each false-position search. -/
def itersolve_gen_steps (sk : stepper_kinematics) (m : move) (sched : ℕ → ℤ)
    (fuel ffuel : ℕ) : Option GenResult :=
  let f := sk.calc_position_cb m
  let half_step := (1 / 2 : ℚ) * sk.step_dist
  let mcu_freq := sk.sc.mcu_freq
  let qa := queue_append_start sk.sc m.print_time (1 / 2)
  let start : timepos := ⟨0, sk.commanded_pos⟩
  gen_steps_loop sk m sched f half_step mcu_freq ffuel fuel
    { last := start, low := start, high := start, seek_time_delta := 1 / 10000,
      sdir := sk.sc.step_dir, qa := qa }

/-! ### Concrete instances used by witnesses and counterexamples -/

/-- The all-success failure schedule: every queue operation succeeds. -/
def sched0 : ℕ → ℤ := fun _ => 0

/-- A failure schedule whose first queue operation fails with status 5. -/
def sched5 : ℕ → ℤ := fun n => if n = 0 then 5 else 0

/-- A stepper with a constant position oracle (an oscillation of amplitude
zero), `step_dist = 0.1`, starting at `commanded_pos = 0`. -/
def const_sk : stepper_kinematics :=
  { sc := ⟨1, true⟩, step_dist := 1 / 10, commanded_pos := 0,
    calc_position_cb := fun _ _ => 0, post_cb := false }

/-- The stepper of the spec's concrete scenario: oracle `position(t) = 10·t`,
`step_dist = 0.1`, `commanded_pos = 0`, forward initial direction, mcu
frequency 1 tick per second. -/
def linear_sk : stepper_kinematics :=
  { sc := ⟨1, true⟩, step_dist := 1 / 10, commanded_pos := 0,
    calc_position_cb := fun _ t => 10 * t, post_cb := false }

/-- The move of the spec's concrete scenario: duration 1 s. -/
def linear_m : move := ⟨0, 1⟩

/-- A short linear move (duration 0.01 s) used by witnesses. -/
def short_m : move := ⟨0, 1 / 100⟩

/-- Time of the first step emitted by the generator on the oracle of
`nonmono_sk` (obtained from a 31-iteration false-position run). -/
def nm_t1 : ℚ := (1 / 10000) * (5 / 7) ^ 31

/-- Time of the second step emitted by the generator on the oracle of
`nonmono_sk`. -/
def nm_t2 : ℚ := ((1 / 10000) * (3 / 20) + (2 * nm_t1) * (2 / 25)) / (23 / 100)

/-- Move end for the non-monotone-ticks run: chosen so the run terminates
right after its third step. -/
def nm_mt : ℚ := 2 * nm_t2 - nm_t1

/-- A discontinuous position oracle driving the generator into the Step
Finder's same-sign fallback with a stale bracket, so that the third emitted
step precedes the second in time. -/
def nm_f : ℚ → ℚ := fun t =>
  if t = 2 * nm_t1 then 3 / 10
  else if t = nm_t2 then 3 / 20
  else if t = nm_mt then 3 / 10
  else 7 / 100

/-- The stepper driven by the oracle `nm_f`. -/
def nonmono_sk : stepper_kinematics :=
  { sc := ⟨1, true⟩, step_dist := 1 / 10, commanded_pos := 0,
    calc_position_cb := fun _ t => nm_f t, post_cb := false }

/-- The move of the non-monotone-ticks run. -/
def nonmono_m : move := ⟨0, nm_mt⟩

/-- A loop state in which the bracket expansion is entered while
`high.time ≠ last.time` (reached after a committed step left `last` behind
the old bracket). -/
def anchor_st : LoopState :=
  { last := ⟨0, 0⟩, low := ⟨0, 0⟩, high := ⟨1 / 10000, 0⟩,
    seek_time_delta := 1 / 5000, sdir := true, qa := ⟨[], [], 0⟩ }

/-- All ticks recorded in an append session lie in the move's tick interval
`[0, move_t * freq]`. -/
def TicksInv (move_t freq : ℚ) (qa : QueueAppend) : Prop :=
  ∀ x ∈ qa.ticksRev, 0 ≤ x ∧ x ≤ move_t * freq

/-- The loop-state invariant of the generator: the seek delta is positive and
all loop-state times, and all recorded ticks, lie within the move. -/
def StInv (move_t freq : ℚ) (st : LoopState) : Prop :=
  0 < st.seek_time_delta ∧
  0 ≤ st.last.time ∧ st.last.time ≤ move_t ∧
  0 ≤ st.low.time ∧ st.low.time ≤ move_t ∧
  0 ≤ st.high.time ∧ st.high.time ≤ move_t ∧
  TicksInv move_t freq st.qa

/-! ### Theorems -/

/-- C7: if the high sample's position equals the target exactly,
`itersolve_find_step` returns the high sample unchanged (original time and
untranslated position) and performs zero oracle calls. -/
theorem find_step_perfect_guess (f : ℚ → ℚ) (fuel : ℕ) (low high : timepos)
    (target : ℚ) (h : high.position = target) :
    itersolve_find_step f fuel low high target = some (high, 0) := by
  unfold itersolve_find_step
  simp [h]

/-- Witness for `find_step_perfect_guess`. -/
theorem find_step_perfect_guess_witness :
    itersolve_find_step (fun _ => 0) 5 ⟨0, 0⟩ ⟨1, 3⟩ 3 = some (⟨1, 3⟩, 0) :=
  find_step_perfect_guess (fun _ => 0) 5 ⟨0, 0⟩ ⟨1, 3⟩ 3 rfl

/-- C5: if the two bracket samples lie on the same side of the target after
translation and the high sample does not hit the target exactly,
`itersolve_find_step` returns the low sample's time paired with the target
value (not the low sample's actual position), with zero oracle calls. -/
theorem find_step_same_sign_fallback (f : ℚ → ℚ) (fuel : ℕ) (low high : timepos)
    (target : ℚ) (hne : high.position ≠ target)
    (hsign : signbit (high.position - target) = signbit (low.position - target)) :
    itersolve_find_step f fuel low high target = some (⟨low.time, target⟩, 0) := by
  unfold itersolve_find_step
  simp [sub_eq_zero, hne, hsign]

/-- Witness for `find_step_same_sign_fallback`. -/
theorem find_step_same_sign_fallback_witness :
    itersolve_find_step (fun _ => 0) 5 ⟨0, 1⟩ ⟨1, 2⟩ 0 = some (⟨0, 0⟩, 0) :=
  find_step_same_sign_fallback (fun _ => 0) 5 ⟨0, 1⟩ ⟨1, 2⟩ 0 (by norm_num)
    (by decide)

/-- C3 counterexample: entering the bracket expansion with
`high.time = 1/10000`, `last.time = 0` and `seek_time_delta = 1/5000`, the
generator continues with `high.time = 1/5000`, which is not the old
`high.time` plus `seek_time_delta` (`3/10000`): the new `high.time` is
anchored at `last.time`, not at the old `high.time`. -/
theorem seek_new_high_range_anchor_counterexample :
    gen_step_body const_sk ⟨0, 1⟩ sched0 (fun _ => 0) (1 / 20) 1 5 anchor_st
        = some (.inr (seek_new_high_range_body (fun _ => 0) 1 anchor_st))
      ∧ (seek_new_high_range_body (fun _ => 0) 1 anchor_st).high.time = 1 / 5000
      ∧ anchor_st.high.time + anchor_st.seek_time_delta = 3 / 10000
      ∧ (1 / 5000 : ℚ) ≠ 3 / 10000 := by
  refine ⟨by rfl, by norm_num [seek_new_high_range_body, anchor_st], by norm_num [anchor_st],
    by norm_num⟩

/-- C3 (amended): whenever the displacement from `last` to `high` is smaller
in magnitude than half a step and `high.time` has not reached the move end,
the generator continues with the expanded state: `low` becomes the old
`high`, the new `high.time` is `last.time + seek_time_delta` capped at the
move end (anchored at the last committed step, not at the old `high.time`),
`seek_time_delta` doubles, and the oracle is resampled at the new
`high.time`. -/
theorem seek_new_high_range_expands_from_last
    (sk : stepper_kinematics) (m : move) (sched : ℕ → ℤ) (f : ℚ → ℚ)
    (half_step mcu_freq : ℚ) (ffuel : ℕ) (st : LoopState)
    (h1 : |st.high.position - st.last.position| < half_step)
    (h2 : st.high.time < m.move_t) :
    gen_step_body sk m sched f half_step mcu_freq ffuel st
        = some (.inr (seek_new_high_range_body f m.move_t st))
      ∧ (seek_new_high_range_body f m.move_t st).low = st.high
      ∧ (seek_new_high_range_body f m.move_t st).high.time
          = min (st.last.time + st.seek_time_delta) m.move_t
      ∧ (seek_new_high_range_body f m.move_t st).seek_time_delta
          = 2 * st.seek_time_delta
      ∧ (seek_new_high_range_body f m.move_t st).high.position
          = f (min (st.last.time + st.seek_time_delta) m.move_t)
      ∧ (seek_new_high_range_body f m.move_t st).last = st.last
      ∧ (seek_new_high_range_body f m.move_t st).qa = st.qa := by
  have hmin : (if st.last.time + st.seek_time_delta > m.move_t then m.move_t
      else st.last.time + st.seek_time_delta)
      = min (st.last.time + st.seek_time_delta) m.move_t := by
    rcases le_or_lt (st.last.time + st.seek_time_delta) m.move_t with h | h
    · rw [if_neg (not_lt.2 h), min_eq_left h]
    · rw [if_pos h, min_eq_right h.le]
  refine ⟨?_, ?_, ?_, ?_, ?_, ?_, ?_⟩ <;>
    simp [gen_step_body, seek_new_high_range, seek_new_high_range_body, h1,
      not_le.2 h2, hmin, two_mul]

/-- Witness for `seek_new_high_range_expands_from_last`. -/
theorem seek_new_high_range_expands_from_last_witness :
    gen_step_body const_sk ⟨0, 1⟩ sched0 (fun _ => 0) (1 / 20) 1 5 anchor_st
        = some (.inr (seek_new_high_range_body (fun _ => 0) 1 anchor_st))
      ∧ (seek_new_high_range_body (fun _ => 0) 1 anchor_st).low = anchor_st.high
      ∧ (seek_new_high_range_body (fun _ => 0) 1 anchor_st).high.time
          = min (anchor_st.last.time + anchor_st.seek_time_delta) 1
      ∧ (seek_new_high_range_body (fun _ => 0) 1 anchor_st).seek_time_delta
          = 2 * anchor_st.seek_time_delta
      ∧ (seek_new_high_range_body (fun _ => 0) 1 anchor_st).high.position
          = (fun _ => (0 : ℚ)) (min (anchor_st.last.time + anchor_st.seek_time_delta) 1)
      ∧ (seek_new_high_range_body (fun _ => 0) 1 anchor_st).last = anchor_st.last
      ∧ (seek_new_high_range_body (fun _ => 0) 1 anchor_st).qa = anchor_st.qa :=
  seek_new_high_range_expands_from_last const_sk ⟨0, 1⟩ sched0 (fun _ => 0)
    (1 / 20) 1 5 anchor_st (by norm_num [anchor_st]) (by norm_num [anchor_st])

set_option maxRecDepth 4000 in
/-- C6: on the spec's concrete scenario (oracle `10·t`, `step_dist = 0.1`,
duration 1 s, forward initial direction), the generator succeeds and emits
exactly 100 steps at times `0.005 + k·0.01` (here exactly), all forward with
zero direction changes, leaving `commanded_pos = 10`. -/
theorem gen_steps_linear_scenario :
    ((itersolve_gen_steps linear_sk linear_m sched0 200 50).map fun r =>
        (r.status, r.qa.ticksRev.reverse, r.qa.dirsRev, r.sk.commanded_pos, r.finished))
      = some (0, (List.range 100).map (fun k => 1 / 200 + (k : ℚ) / 100), [], 10, true) := by
  decide

set_option maxRecDepth 2000 in
/-- C1 counterexample: a successful generation call (driven by the
discontinuous oracle `nm_f`) whose appended tick times are
`[nm_t1, nm_t2, 2·nm_t1]` with `2·nm_t1 < nm_t2`: the ticks passed to
`queue_append` within one successful call are not strictly increasing (the
third step even precedes the second). -/
theorem gen_steps_ticks_not_monotonic :
    ((itersolve_gen_steps nonmono_sk nonmono_m sched0 40 40).map fun r =>
        (r.status, r.qa.ticksRev.reverse))
      = some (0, [nm_t1 * 1, nm_t2 * 1, 2 * nm_t1 * 1])
    ∧ ¬ List.Chain' (fun a b : ℚ => a < b) [nm_t1 * 1, nm_t2 * 1, 2 * nm_t1 * 1] := by
  constructor
  · decide
  · intro h
    rw [List.chain'_cons, List.chain'_cons] at h
    exact absurd h.2.1 (by decide)

/-- The false-position interpolation point lies between the two bracket
times whenever the translated bracket positions have opposite sign bits. -/
theorem false_position_guess_between (a b l h lp hp : ℚ)
    (hsgn : signbit hp ≠ signbit lp)
    (hl1 : a ≤ l) (hl2 : l ≤ b) (hh1 : a ≤ h) (hh2 : h ≤ b) :
    a ≤ (l * hp - h * lp) / (hp - lp) ∧ (l * hp - h * lp) / (hp - lp) ≤ b := by
  simp only [signbit, ne_eq, decide_eq_decide] at hsgn
  rcases lt_or_le hp 0 with hhp | hhp
  · have hlp : 0 ≤ lp := by
      by_contra hc
      push_neg at hc
      exact hsgn ⟨fun _ => hc, fun _ => hhp⟩
    have hd : hp - lp < 0 := by linarith
    constructor
    · rw [le_div_iff_of_neg hd]
      nlinarith [mul_nonpos_of_nonneg_of_nonpos (sub_nonneg.2 hl1) hhp.le,
        mul_nonneg (sub_nonneg.2 hh1) hlp]
    · rw [div_le_iff_of_neg hd]
      have p1 : 0 ≤ (b - l) * (-hp) := mul_nonneg (sub_nonneg.2 hl2) (neg_nonneg.2 hhp.le)
      have p2 : 0 ≤ (b - h) * lp := mul_nonneg (sub_nonneg.2 hh2) hlp
      nlinarith [p1, p2]
  · have hlp : lp < 0 := by
      by_contra hc
      push_neg at hc
      exact hsgn ⟨fun hh => absurd hh (not_lt.2 hhp), fun hl => absurd hl (not_lt.2 hc)⟩
    have hd : 0 < hp - lp := by linarith
    constructor
    · rw [le_div_iff₀ hd]
      nlinarith [mul_nonneg (sub_nonneg.2 hl1) hhp,
        mul_nonpos_of_nonneg_of_nonpos (sub_nonneg.2 hh1) hlp.le]
    · rw [div_le_iff₀ hd]
      nlinarith [mul_nonneg (sub_nonneg.2 hl2) hhp,
        mul_nonpos_of_nonneg_of_nonpos (sub_nonneg.2 hh2) hlp.le]

/-- The false-position loop of the Step Finder only returns times inside the
interval `[a, b]` containing the initial bracket and best guess. -/
theorem find_step_loop_time_range (f : ℚ → ℚ) (target : ℚ) (hsgn : Bool) (a b : ℚ) :
    ∀ fuel (low high best : timepos) (calls : ℕ) (res : timepos) (rcalls : ℕ),
      signbit high.position = hsgn → signbit low.position ≠ hsgn →
      a ≤ low.time → low.time ≤ b → a ≤ high.time → high.time ≤ b →
      a ≤ best.time → best.time ≤ b →
      itersolve_find_step_loop f target hsgn fuel low high best calls = some (res, rcalls) →
      a ≤ res.time ∧ res.time ≤ b := by
  intro fuel
  induction fuel with
  | zero => intro low high best calls res rcalls _ _ _ _ _ _ _ _ h; exact absurd h (by simp [itersolve_find_step_loop])
  | succ n ih =>
    intro low high best calls res rcalls hh hl hl1 hl2 hh1 hh2 hb1 hb2 h
    rw [itersolve_find_step_loop] at h
    have hg := false_position_guess_between a b low.time high.time low.position high.position
      (by rw [hh]; exact fun he => hl he.symm) hl1 hl2 hh1 hh2
    set g := (low.time * high.position - high.time * low.position)
      / (high.position - low.position) with hgdef
    by_cases hstop : |g - best.time| ≤ 1 / 1000000000
    · rw [if_pos hstop] at h
      simp only [Option.some.injEq, Prod.mk.injEq] at h
      obtain ⟨h1, -⟩ := h
      exact ⟨h1 ▸ hb1, h1 ▸ hb2⟩
    · rw [if_neg hstop] at h
      by_cases hbr : signbit (f g - target) = hsgn
      · rw [if_pos hbr] at h
        exact ih low ⟨g, f g - target⟩ ⟨g, f g⟩ (calls + 1) res rcalls hbr hl hl1 hl2 hg.1 hg.2 hg.1 hg.2 h
      · rw [if_neg hbr] at h
        exact ih ⟨g, f g - target⟩ high ⟨g, f g⟩ (calls + 1) res rcalls hh hbr hg.1 hg.2 hh1 hh2 hg.1 hg.2 h

/-- The time returned by the Step Finder always lies between the two bracket
times (in either order): guesses are convex combinations of the bracket
endpoints, the perfect-guess return is the high time and the same-sign
fallback return is the low time. -/
theorem find_step_time_range (f : ℚ → ℚ) (fuel : ℕ) (low high : timepos)
    (target : ℚ) (res : timepos) (calls : ℕ)
    (h : itersolve_find_step f fuel low high target = some (res, calls)) :
    min low.time high.time ≤ res.time ∧ res.time ≤ max low.time high.time := by
  unfold itersolve_find_step at h
  dsimp only at h
  split_ifs at h with h0 h1
  · simp only [Option.some.injEq, Prod.mk.injEq] at h
    obtain ⟨h2, -⟩ := h
    exact ⟨h2 ▸ min_le_right _ _, h2 ▸ le_max_right _ _⟩
  · simp only [Option.some.injEq, Prod.mk.injEq] at h
    obtain ⟨h2, -⟩ := h
    exact ⟨h2 ▸ min_le_left _ _, h2 ▸ le_max_left _ _⟩
  · exact find_step_loop_time_range f target (signbit (high.position - target))
      (min low.time high.time) (max low.time high.time) fuel
      ⟨low.time, low.position - target⟩ ⟨high.time, high.position - target⟩ high 0 res calls
      rfl (fun hc => h1 hc.symm) (min_le_left _ _) (le_max_left _ _)
      (min_le_right _ _) (le_max_right _ _) (min_le_right _ _) (le_max_right _ _) h

/-- Bracket expansion preserves the generator's loop-state invariant. -/
theorem seek_body_StInv (f : ℚ → ℚ) (mt fr : ℚ) (st : LoopState)
    (hm : 0 ≤ mt) (h : StInv mt fr st) :
    StInv mt fr (seek_new_high_range_body f mt st) := by
  unfold StInv at h ⊢
  obtain ⟨h1, h2, h3, h4, h5, h6, h7, h8⟩ := h
  unfold seek_new_high_range_body
  dsimp only
  by_cases hc : st.last.time + st.seek_time_delta > mt
  · rw [if_pos hc]
    exact ⟨by linarith, h2, h3, h6, h7, hm, le_refl mt, h8⟩
  · rw [if_neg hc]
    push_neg at hc
    exact ⟨by linarith, h2, h3, h6, h7, by linarith, hc, h8⟩

/-- The `seek_new_high_range` label preserves the invariant: a continuing
state satisfies `StInv`, and a returned result's session satisfies the tick
bounds. -/
theorem seek_StInv (sk : stepper_kinematics) (f : ℚ → ℚ) (mt fr : ℚ) (s : LoopState)
    (hm : 0 ≤ mt) (h : StInv mt fr s) :
    (∀ st', seek_new_high_range sk f mt s = .inr st' → StInv mt fr st') ∧
    (∀ r, seek_new_high_range sk f mt s = .inl r → TicksInv mt fr r.qa) := by
  unfold seek_new_high_range
  by_cases hc : s.high.time ≥ mt
  · rw [if_pos hc]
    exact ⟨fun st' hst' => absurd hst' (by simp), fun r hr => by
      obtain ⟨-⟩ := Sum.inl.inj hr; exact h.2.2.2.2.2.2.2⟩
  · rw [if_neg hc]
    exact ⟨fun st' hst' => (Sum.inr.inj hst') ▸ seek_body_StInv f mt fr s hm h,
      fun r hr => absurd hr (by simp)⟩

/-- The step-emission tail preserves the invariant: a continuing state
satisfies `StInv`, and a returned result's session satisfies the tick
bounds.  The newly appended tick lies in `[0, move_t * freq]` because the
Step Finder's result time lies between the bracket times. -/
theorem gen_step_emit_inv (sk : stepper_kinematics) (m : move) (sched : ℕ → ℤ)
    (f : ℚ → ℚ) (hs fr : ℚ) (ffuel : ℕ) (st : LoopState) (sdir : Bool)
    (qa : QueueAppend) (hm : 0 ≤ m.move_t) (hf : 0 ≤ fr)
    (hinv : StInv m.move_t fr st) (hqa : TicksInv m.move_t fr qa) :
    (∀ st', gen_step_emit sk m sched f hs fr ffuel st sdir qa = some (.inr st') →
      StInv m.move_t fr st') ∧
    (∀ r, gen_step_emit sk m sched f hs fr ffuel st sdir qa = some (.inl r) →
      TicksInv m.move_t fr r.qa) := by
  obtain ⟨h1, h2, h3, h4, h5, h6, h7, h8⟩ := hinv
  cases hfs : itersolve_find_step f ffuel st.low st.high
      (st.last.position + if sdir then hs else -hs) with
  | none =>
    constructor <;> intro x hx <;> rw [gen_step_emit] at hx <;> dsimp only at hx <;>
      rw [hfs] at hx <;> exact absurd hx (by simp)
  | some p =>
    obtain ⟨next, ncalls⟩ := p
    have hrange := find_step_time_range f ffuel st.low st.high _ next ncalls hfs
    have hnext0 : 0 ≤ next.time := le_trans (le_min h4 h6) hrange.1
    have hnextm : next.time ≤ m.move_t := le_trans hrange.2 (max_le h5 h7)
    have htick0 : 0 ≤ next.time * fr := mul_nonneg hnext0 hf
    have htickm : next.time * fr ≤ m.move_t * fr := mul_le_mul_of_nonneg_right hnextm hf
    have hqa' : TicksInv m.move_t fr ⟨next.time * fr :: qa.ticksRev, qa.dirsRev, qa.nOps + 1⟩ := by
      intro x hx
      rcases List.mem_cons.1 hx with hx | hx
      · exact hx ▸ ⟨htick0, htickm⟩
      · exact hqa x hx
    have hst'' : StInv m.move_t fr
        { last := ⟨next.time, (st.last.position + if sdir then hs else -hs)
            + if sdir then hs else -hs⟩,
          low := next, high := st.high,
          seek_time_delta := if next.time - st.last.time < 1 / 1000000000
            then 1 / 1000000000 else next.time - st.last.time,
          sdir := sdir, qa := ⟨next.time * fr :: qa.ticksRev, qa.dirsRev, qa.nOps + 1⟩ } := by
      refine ⟨?_, hnext0, hnextm, hnext0, hnextm, h6, h7, hqa'⟩
      dsimp only
      by_cases hd : next.time - st.last.time < 1 / 1000000000
      · rw [if_pos hd]; norm_num
      · rw [if_neg hd]; push_neg at hd; linarith
    constructor
    · intro st' hst'
      rw [gen_step_emit] at hst'
      dsimp only at hst'
      rw [hfs] at hst'
      simp only [queue_append] at hst'
      by_cases he : sched qa.nOps = 0
      · rw [if_pos he] at hst'
        dsimp only at hst'
        by_cases hcut : next.time ≥ st.high.time
        · rw [if_pos hcut] at hst'
          exact (seek_StInv sk f m.move_t fr _ hm hst'').1 st' (Option.some.inj hst')
        · rw [if_neg hcut] at hst'
          exact (Sum.inr.inj (Option.some.inj hst')) ▸ hst''
      · rw [if_neg he] at hst'
        exact absurd (Option.some.inj hst') (by simp)
    · intro r hr
      rw [gen_step_emit] at hr
      dsimp only at hr
      rw [hfs] at hr
      simp only [queue_append] at hr
      by_cases he : sched qa.nOps = 0
      · rw [if_pos he] at hr
        dsimp only at hr
        by_cases hcut : next.time ≥ st.high.time
        · rw [if_pos hcut] at hr
          exact (seek_StInv sk f m.move_t fr _ hm hst'').2 r (Option.some.inj hr)
        · rw [if_neg hcut] at hr
          exact absurd (Option.some.inj hr) (by simp)
      · rw [if_neg he] at hr
        have := Sum.inl.inj (Option.some.inj hr)
        rw [← this]
        exact hqa

/-- One generator iteration preserves the invariant: a continuing state
satisfies `StInv`, and a returned result's session satisfies the tick
bounds. -/
theorem gen_step_body_inv (sk : stepper_kinematics) (m : move) (sched : ℕ → ℤ)
    (f : ℚ → ℚ) (hs fr : ℚ) (ffuel : ℕ) (st : LoopState)
    (hm : 0 ≤ m.move_t) (hf : 0 ≤ fr) (hinv : StInv m.move_t fr st) :
    (∀ st', gen_step_body sk m sched f hs fr ffuel st = some (.inr st') →
      StInv m.move_t fr st') ∧
    (∀ r, gen_step_body sk m sched f hs fr ffuel st = some (.inl r) →
      TicksInv m.move_t fr r.qa) := by
  have hticks : TicksInv m.move_t fr st.qa := hinv.2.2.2.2.2.2.2
  constructor
  · intro st' hst'
    rw [gen_step_body] at hst'
    dsimp only at hst'
    by_cases hc1 : |st.high.position - st.last.position| < hs
    · rw [if_pos hc1] at hst'
      exact (seek_StInv sk f m.move_t fr st hm hinv).1 st' (Option.some.inj hst')
    · rw [if_neg hc1] at hst'
      by_cases hc2 : decide (st.high.position - st.last.position > 0) ≠ st.sdir
      · rw [if_pos hc2] at hst'
        by_cases hc3 : |st.high.position - st.last.position| < hs + 1 / 1000000000
        · rw [if_pos hc3] at hst'
          exact (seek_StInv sk f m.move_t fr st hm hinv).1 st' (Option.some.inj hst')
        · rw [if_neg hc3] at hst'
          by_cases hc4 : st.last.time ≥ st.low.time ∧ st.high.time > st.last.time
          · rw [if_pos hc4] at hst'
            obtain ⟨h1, h2, h3, h4, h5, h6, h7, h8⟩ := hinv
            have hsteq := Sum.inr.inj (Option.some.inj hst')
            rw [← hsteq]
            exact ⟨h1, h2, h3, h4, h5, by dsimp only; linarith, by dsimp only; linarith, h8⟩
          · rw [if_neg hc4] at hst'
            simp only [queue_append_set_next_step_dir] at hst'
            by_cases he : sched st.qa.nOps = 0
            · rw [if_pos he] at hst'
              dsimp only at hst'
              exact (gen_step_emit_inv sk m sched f hs fr ffuel st
                (decide (st.high.position - st.last.position > 0))
                ⟨st.qa.ticksRev,
                  decide (st.high.position - st.last.position > 0) :: st.qa.dirsRev,
                  st.qa.nOps + 1⟩
                hm hf hinv (fun x hx => hticks x hx)).1 st' hst'
            · rw [if_neg he] at hst'
              exact absurd (Option.some.inj hst') (by simp)
      · rw [if_neg hc2] at hst'
        exact (gen_step_emit_inv sk m sched f hs fr ffuel st st.sdir st.qa hm hf hinv
          hticks).1 st' hst'
  · intro r hr
    rw [gen_step_body] at hr
    dsimp only at hr
    by_cases hc1 : |st.high.position - st.last.position| < hs
    · rw [if_pos hc1] at hr
      exact (seek_StInv sk f m.move_t fr st hm hinv).2 r (Option.some.inj hr)
    · rw [if_neg hc1] at hr
      by_cases hc2 : decide (st.high.position - st.last.position > 0) ≠ st.sdir
      · rw [if_pos hc2] at hr
        by_cases hc3 : |st.high.position - st.last.position| < hs + 1 / 1000000000
        · rw [if_pos hc3] at hr
          exact (seek_StInv sk f m.move_t fr st hm hinv).2 r (Option.some.inj hr)
        · rw [if_neg hc3] at hr
          by_cases hc4 : st.last.time ≥ st.low.time ∧ st.high.time > st.last.time
          · rw [if_pos hc4] at hr
            exact absurd (Option.some.inj hr) (by simp)
          · rw [if_neg hc4] at hr
            simp only [queue_append_set_next_step_dir] at hr
            by_cases he : sched st.qa.nOps = 0
            · rw [if_pos he] at hr
              dsimp only at hr
              exact (gen_step_emit_inv sk m sched f hs fr ffuel st
                (decide (st.high.position - st.last.position > 0))
                ⟨st.qa.ticksRev,
                  decide (st.high.position - st.last.position > 0) :: st.qa.dirsRev,
                  st.qa.nOps + 1⟩
                hm hf hinv (fun x hx => hticks x hx)).2 r hr
            · rw [if_neg he] at hr
              have := Sum.inl.inj (Option.some.inj hr)
              rw [← this]
              exact hticks
      · rw [if_neg hc2] at hr
        exact (gen_step_emit_inv sk m sched f hs fr ffuel st st.sdir st.qa hm hf hinv
          hticks).2 r hr

/-- Unfolding equation of `gen_steps_loop` at zero fuel. -/
theorem gen_steps_loop_zero (sk : stepper_kinematics) (m : move) (sched : ℕ → ℤ)
    (f : ℚ → ℚ) (hs fr : ℚ) (ffuel : ℕ) (st : LoopState) :
    gen_steps_loop sk m sched f hs fr ffuel 0 st = none := rfl

/-- Unfolding equation of `gen_steps_loop` at successor fuel. -/
theorem gen_steps_loop_succ (sk : stepper_kinematics) (m : move) (sched : ℕ → ℤ)
    (f : ℚ → ℚ) (hs fr : ℚ) (ffuel n : ℕ) (st : LoopState) :
    gen_steps_loop sk m sched f hs fr ffuel (n + 1) st
      = match gen_step_body sk m sched f hs fr ffuel st with
        | none => none
        | some (.inl r) => some r
        | some (.inr st') => gen_steps_loop sk m sched f hs fr ffuel n st' := rfl

/-- Any result of the generator loop started in an invariant-satisfying
state has all its session ticks inside `[0, move_t * freq]`. -/
theorem gen_steps_loop_ticks (sk : stepper_kinematics) (m : move) (sched : ℕ → ℤ)
    (f : ℚ → ℚ) (hs fr : ℚ) (ffuel : ℕ) (hm : 0 ≤ m.move_t) (hf : 0 ≤ fr) :
    ∀ fuel st r, StInv m.move_t fr st →
      gen_steps_loop sk m sched f hs fr ffuel fuel st = some r →
      TicksInv m.move_t fr r.qa := by
  intro fuel
  induction fuel with
  | zero =>
    intro st r _ h
    rw [gen_steps_loop_zero] at h
    exact absurd h (by simp)
  | succ n ih =>
    intro st r hinv h
    rw [gen_steps_loop_succ] at h
    cases hb : gen_step_body sk m sched f hs fr ffuel st with
    | none => rw [hb] at h; exact absurd h (by simp)
    | some out =>
      rw [hb] at h
      cases out with
      | inl r' =>
        dsimp only at h
        obtain rfl := Option.some.inj h
        exact (gen_step_body_inv sk m sched f hs fr ffuel st hm hf hinv).2 r' hb
      | inr st' =>
        dsimp only at h
        exact ih st' r
          ((gen_step_body_inv sk m sched f hs fr ffuel st hm hf hinv).1 st' hb) h

/-- C1 (amended): in a successful `itersolve_gen_steps` call, every tick
passed to `queue_append` lies in the move's tick interval
`[0, move_t * mcu_freq]`.  (Strict monotonicity of the ticks does not hold
in general: see `gen_steps_ticks_not_monotonic`.) -/
theorem gen_steps_ticks_within_move_interval (sk : stepper_kinematics) (m : move)
    (sched : ℕ → ℤ) (fuel ffuel : ℕ) (r : GenResult)
    (hm : 0 ≤ m.move_t) (hf : 0 ≤ sk.sc.mcu_freq)
    (h : itersolve_gen_steps sk m sched fuel ffuel = some r)
    (_hsucc : r.status = 0) :
    ∀ x ∈ r.qa.ticksRev, 0 ≤ x ∧ x ≤ m.move_t * sk.sc.mcu_freq := by
  unfold itersolve_gen_steps at h
  dsimp only at h
  have hinv : StInv m.move_t sk.sc.mcu_freq
      { last := ⟨0, sk.commanded_pos⟩, low := ⟨0, sk.commanded_pos⟩,
        high := ⟨0, sk.commanded_pos⟩, seek_time_delta := 1 / 10000,
        sdir := sk.sc.step_dir, qa := queue_append_start sk.sc m.print_time (1 / 2) } :=
    ⟨by norm_num, le_refl 0, hm, le_refl 0, hm, le_refl 0, hm,
      fun x hx => absurd hx (by simp [queue_append_start])⟩
  exact gen_steps_loop_ticks sk m sched (sk.calc_position_cb m)
    ((1 / 2) * sk.step_dist) sk.sc.mcu_freq ffuel hm hf fuel _ r hinv h

/-- Witness for `gen_steps_ticks_within_move_interval`: a one-step linear
run whose single tick `1/200` lies in `[0, (1/100)·1]`. -/
theorem gen_steps_ticks_within_move_interval_witness :
    0 ≤ (1 / 200 * 1 : ℚ) ∧ (1 / 200 * 1 : ℚ) ≤ short_m.move_t * linear_sk.sc.mcu_freq :=
  gen_steps_ticks_within_move_interval linear_sk short_m sched0 40 40
    ⟨0, { linear_sk with commanded_pos := 1 / 10 }, ⟨[1 / 200 * 1], [], 1⟩, true, false⟩
    (by norm_num [short_m]) (by norm_num [linear_sk]) (by rfl) (by rfl)
    (1 / 200 * 1) (List.mem_singleton.2 rfl)

/-- Characterization of a result returned from the `seek_new_high_range`
label: it is exactly the successful-completion record. -/
theorem seek_inl_eq (sk : stepper_kinematics) (f : ℚ → ℚ) (mt : ℚ) (s : LoopState)
    (r : GenResult) (h : seek_new_high_range sk f mt s = .inl r) :
    r = { status := 0, sk := { sk with commanded_pos := s.last.position },
          qa := s.qa, finished := true, postInvoked := sk.post_cb } := by
  unfold seek_new_high_range at h
  by_cases hc : s.high.time ≥ mt
  · rw [if_pos hc] at h
    exact (Sum.inl.inj h).symm
  · rw [if_neg hc] at h
    exact absurd h (by simp)

/-- Characterization of a result returned from the emission tail: either the
successful-completion record of some final state, or a queue-failure record
carrying the failing operation's non-zero status, the untouched stepper
state, unfinished session, and no post hook. -/
theorem gen_step_emit_inl_cases (sk : stepper_kinematics) (m : move) (sched : ℕ → ℤ)
    (f : ℚ → ℚ) (hs fr : ℚ) (ffuel : ℕ) (st : LoopState) (sdir : Bool)
    (qa : QueueAppend) (r : GenResult)
    (h : gen_step_emit sk m sched f hs fr ffuel st sdir qa = some (.inl r)) :
    (∃ s : LoopState,
      r = ⟨0, { sk with commanded_pos := s.last.position }, s.qa, true, sk.post_cb⟩)
    ∨ (∃ e : ℤ, ∃ qa0 : QueueAppend, e ≠ 0 ∧ r = ⟨e, sk, qa0, false, false⟩) := by
  rw [gen_step_emit] at h
  dsimp only at h
  cases hfs : itersolve_find_step f ffuel st.low st.high
      (st.last.position + if sdir then hs else -hs) with
  | none => rw [hfs] at h; exact absurd h (by simp)
  | some p =>
    obtain ⟨next, ncalls⟩ := p
    rw [hfs] at h
    simp only [queue_append] at h
    by_cases he : sched qa.nOps = 0
    · rw [if_pos he] at h
      dsimp only at h
      by_cases hcut : next.time ≥ st.high.time
      · rw [if_pos hcut] at h
        exact Or.inl ⟨_, seek_inl_eq sk f m.move_t _ r (Option.some.inj h)⟩
      · rw [if_neg hcut] at h
        exact absurd (Option.some.inj h) (by simp)
    · rw [if_neg he] at h
      dsimp only at h
      exact Or.inr ⟨sched qa.nOps, qa, he, (Sum.inl.inj (Option.some.inj h)).symm⟩

/-- Characterization of a result returned from one generator iteration. -/
theorem gen_step_body_inl_cases (sk : stepper_kinematics) (m : move) (sched : ℕ → ℤ)
    (f : ℚ → ℚ) (hs fr : ℚ) (ffuel : ℕ) (st : LoopState) (r : GenResult)
    (h : gen_step_body sk m sched f hs fr ffuel st = some (.inl r)) :
    (∃ s : LoopState,
      r = ⟨0, { sk with commanded_pos := s.last.position }, s.qa, true, sk.post_cb⟩)
    ∨ (∃ e : ℤ, ∃ qa0 : QueueAppend, e ≠ 0 ∧ r = ⟨e, sk, qa0, false, false⟩) := by
  rw [gen_step_body] at h
  dsimp only at h
  by_cases hc1 : |st.high.position - st.last.position| < hs
  · rw [if_pos hc1] at h
    exact Or.inl ⟨st, seek_inl_eq sk f m.move_t st r (Option.some.inj h)⟩
  · rw [if_neg hc1] at h
    by_cases hc2 : decide (st.high.position - st.last.position > 0) ≠ st.sdir
    · rw [if_pos hc2] at h
      by_cases hc3 : |st.high.position - st.last.position| < hs + 1 / 1000000000
      · rw [if_pos hc3] at h
        exact Or.inl ⟨st, seek_inl_eq sk f m.move_t st r (Option.some.inj h)⟩
      · rw [if_neg hc3] at h
        by_cases hc4 : st.last.time ≥ st.low.time ∧ st.high.time > st.last.time
        · rw [if_pos hc4] at h
          exact absurd (Option.some.inj h) (by simp)
        · rw [if_neg hc4] at h
          simp only [queue_append_set_next_step_dir] at h
          by_cases he : sched st.qa.nOps = 0
          · rw [if_pos he] at h
            dsimp only at h
            exact gen_step_emit_inl_cases sk m sched f hs fr ffuel st _ _ r h
          · rw [if_neg he] at h
            dsimp only at h
            exact Or.inr ⟨sched st.qa.nOps, st.qa, he,
              (Sum.inl.inj (Option.some.inj h)).symm⟩
    · rw [if_neg hc2] at h
      exact gen_step_emit_inl_cases sk m sched f hs fr ffuel st st.sdir st.qa r h

/-- Characterization of any result of the generator loop. -/
theorem gen_steps_loop_inl_cases (sk : stepper_kinematics) (m : move) (sched : ℕ → ℤ)
    (f : ℚ → ℚ) (hs fr : ℚ) (ffuel : ℕ) :
    ∀ fuel st r, gen_steps_loop sk m sched f hs fr ffuel fuel st = some r →
      (∃ s : LoopState,
        r = ⟨0, { sk with commanded_pos := s.last.position }, s.qa, true, sk.post_cb⟩)
      ∨ (∃ e : ℤ, ∃ qa0 : QueueAppend, e ≠ 0 ∧ r = ⟨e, sk, qa0, false, false⟩) := by
  intro fuel
  induction fuel with
  | zero =>
    intro st r h
    rw [gen_steps_loop_zero] at h
    exact absurd h (by simp)
  | succ n ih =>
    intro st r h
    rw [gen_steps_loop_succ] at h
    cases hb : gen_step_body sk m sched f hs fr ffuel st with
    | none => rw [hb] at h; exact absurd h (by simp)
    | some out =>
      rw [hb] at h
      cases out with
      | inl r' =>
        dsimp only at h
        obtain rfl := Option.some.inj h
        exact gen_step_body_inl_cases sk m sched f hs fr ffuel st r' hb
      | inr st' =>
        dsimp only at h
        exact ih st' r h

/-- C2: if `itersolve_gen_steps` returns a non-zero status (a queue
operation failed), the stepper state is exactly its value before the call
(in particular `commanded_pos` is untouched), the append session was not
finalized, and the post-generation hook was not invoked. -/
theorem gen_steps_failure_propagation (sk : stepper_kinematics) (m : move)
    (sched : ℕ → ℤ) (fuel ffuel : ℕ) (r : GenResult)
    (h : itersolve_gen_steps sk m sched fuel ffuel = some r)
    (hst : r.status ≠ 0) :
    r.sk = sk ∧ r.finished = false ∧ r.postInvoked = false := by
  unfold itersolve_gen_steps at h
  dsimp only at h
  rcases gen_steps_loop_inl_cases sk m sched (sk.calc_position_cb m)
      ((1 / 2) * sk.step_dist) sk.sc.mcu_freq ffuel fuel _ r h with
    ⟨s, rfl⟩ | ⟨e, qa0, he, rfl⟩
  · exact absurd rfl hst
  · exact ⟨rfl, rfl, rfl⟩

/-- Witness for `gen_steps_failure_propagation`: with a schedule failing the
first queue operation with status 5, a linear run returns status 5 with the
stepper untouched, the session unfinalized and no post hook. -/
theorem gen_steps_failure_propagation_witness :
    (⟨5, linear_sk, ⟨[], [], 0⟩, false, false⟩ : GenResult).sk = linear_sk
      ∧ (⟨5, linear_sk, ⟨[], [], 0⟩, false, false⟩ : GenResult).finished = false
      ∧ (⟨5, linear_sk, ⟨[], [], 0⟩, false, false⟩ : GenResult).postInvoked = false :=
  gen_steps_failure_propagation linear_sk short_m sched5 40 40
    ⟨5, linear_sk, ⟨[], [], 0⟩, false, false⟩ (by rfl) (by decide)

/-- C9: `itersolve_gen_steps` writes no stepper-kinematics field other than
`commanded_pos`: whatever the outcome, `sc`, `step_dist`,
`calc_position_cb` and `post_cb` equal their values before the call. -/
theorem gen_steps_writes_only_commanded_pos (sk : stepper_kinematics) (m : move)
    (sched : ℕ → ℤ) (fuel ffuel : ℕ) (r : GenResult)
    (h : itersolve_gen_steps sk m sched fuel ffuel = some r) :
    r.sk.sc = sk.sc ∧ r.sk.step_dist = sk.step_dist ∧
      r.sk.calc_position_cb = sk.calc_position_cb ∧ r.sk.post_cb = sk.post_cb := by
  unfold itersolve_gen_steps at h
  dsimp only at h
  rcases gen_steps_loop_inl_cases sk m sched (sk.calc_position_cb m)
      ((1 / 2) * sk.step_dist) sk.sc.mcu_freq ffuel fuel _ r h with
    ⟨s, rfl⟩ | ⟨e, qa0, he, rfl⟩
  · exact ⟨rfl, rfl, rfl, rfl⟩
  · exact ⟨rfl, rfl, rfl, rfl⟩

/-- Witness for `gen_steps_writes_only_commanded_pos` on a completed
constant-oracle run. -/
theorem gen_steps_writes_only_commanded_pos_witness :
    (⟨0, { const_sk with commanded_pos := 0 }, ⟨[], [], 0⟩, true, false⟩
        : GenResult).sk.sc = const_sk.sc
      ∧ (⟨0, { const_sk with commanded_pos := 0 }, ⟨[], [], 0⟩, true, false⟩
          : GenResult).sk.step_dist = const_sk.step_dist
      ∧ (⟨0, { const_sk with commanded_pos := 0 }, ⟨[], [], 0⟩, true, false⟩
          : GenResult).sk.calc_position_cb = const_sk.calc_position_cb
      ∧ (⟨0, { const_sk with commanded_pos := 0 }, ⟨[], [], 0⟩, true, false⟩
          : GenResult).sk.post_cb = const_sk.post_cb :=
  gen_steps_writes_only_commanded_pos const_sk ⟨0, 1⟩ sched0 20 5
    ⟨0, { const_sk with commanded_pos := 0 }, ⟨[], [], 0⟩, true, false⟩ (by rfl)

/-- While the sampled displacement from the starting position stays below
half a step, a generator iteration always takes the bracket-expansion
branch. -/
theorem gen_step_body_osc (sk : stepper_kinematics) (m : move) (sched : ℕ → ℤ)
    (f : ℚ → ℚ) (hs fr : ℚ) (ffuel : ℕ) (st : LoopState) (c0 : ℚ)
    (hlast : st.last = ⟨0, c0⟩) (hposc : |st.high.position - c0| < hs) :
    gen_step_body sk m sched f hs fr ffuel st
      = some (seek_new_high_range sk f m.move_t st) := by
  rw [gen_step_body]
  dsimp only
  rw [hlast]
  dsimp only
  rw [if_pos hposc]

/-- A move whose oracle stays strictly within half a step of the starting
commanded position finishes with no queue activity: started from any
expansion state anchored at the move start, the loop terminates successfully
within `n + 2` iterations once `2^n` doublings of the seek delta cover the
move, leaving the session untouched and committing the starting position. -/
theorem gen_steps_loop_osc (sk : stepper_kinematics) (m : move) (sched : ℕ → ℤ)
    (f : ℚ → ℚ) (hs fr : ℚ) (ffuel : ℕ) (c0 : ℚ)
    (hmt : 0 < m.move_t)
    (hosc : ∀ t, 0 < t → t ≤ m.move_t → |f t - c0| < hs) :
    ∀ n st, st.last = ⟨0, c0⟩ → |st.high.position - c0| < hs →
      0 < st.seek_time_delta → st.high.time ≤ m.move_t →
      m.move_t ≤ 2 ^ n * st.seek_time_delta →
      gen_steps_loop sk m sched f hs fr ffuel (n + 2) st
        = some ⟨0, { sk with commanded_pos := c0 }, st.qa, true, sk.post_cb⟩ := by
  have hexp : ∀ st : LoopState, st.last = ⟨0, c0⟩ → 0 < st.seek_time_delta →
      (seek_new_high_range_body f m.move_t st).last = (⟨0, c0⟩ : timepos) ∧
      0 < (seek_new_high_range_body f m.move_t st).seek_time_delta ∧
      (seek_new_high_range_body f m.move_t st).high.time ≤ m.move_t ∧
      (0 < (seek_new_high_range_body f m.move_t st).high.time) ∧
      |(seek_new_high_range_body f m.move_t st).high.position - c0| < hs ∧
      (seek_new_high_range_body f m.move_t st).qa = st.qa ∧
      (m.move_t ≤ st.seek_time_delta →
        (seek_new_high_range_body f m.move_t st).high.time = m.move_t) := by
    intro st hlast hd
    rw [seek_new_high_range_body]
    dsimp only
    rw [hlast]
    dsimp only
    by_cases hc : 0 + st.seek_time_delta > m.move_t
    · rw [if_pos hc]
      exact ⟨rfl, by linarith, le_refl _, hmt, hosc m.move_t hmt (le_refl _), rfl,
        fun _ => rfl⟩
    · rw [if_neg hc]
      push_neg at hc
      exact ⟨rfl, by linarith, by linarith, by linarith,
        hosc _ (by linarith) (by linarith), rfl, fun hb => by linarith⟩
  intro n
  induction n with
  | zero =>
    intro st hlast hposc hd hht hbound
    rw [gen_steps_loop_succ, gen_step_body_osc sk m sched f hs fr ffuel st c0 hlast hposc]
    by_cases hend : st.high.time ≥ m.move_t
    · have hseek : seek_new_high_range sk f m.move_t st
          = .inl ⟨0, { sk with commanded_pos := c0 }, st.qa, true, sk.post_cb⟩ := by
        rw [seek_new_high_range, if_pos hend, hlast]
      rw [hseek]
    · have hseek : seek_new_high_range sk f m.move_t st
          = .inr (seek_new_high_range_body f m.move_t st) := by
        rw [seek_new_high_range, if_neg hend]
      rw [hseek]
      dsimp only
      obtain ⟨hlast', hd', hht', hpos', hposc', hqa', hcap⟩ := hexp st hlast hd
      have hb0 : (2 : ℚ) ^ 0 * st.seek_time_delta = st.seek_time_delta := by ring
      rw [hb0] at hbound
      have hend' : (seek_new_high_range_body f m.move_t st).high.time ≥ m.move_t :=
        le_of_eq (hcap hbound).symm
      rw [gen_steps_loop_succ,
        gen_step_body_osc sk m sched f hs fr ffuel _ c0 hlast' hposc']
      have hseek' : seek_new_high_range sk f m.move_t (seek_new_high_range_body f m.move_t st)
          = .inl ⟨0, { sk with commanded_pos := c0 }, st.qa, true, sk.post_cb⟩ := by
        rw [seek_new_high_range, if_pos hend', hlast', hqa']
      rw [hseek']
  | succ n ih =>
    intro st hlast hposc hd hht hbound
    rw [gen_steps_loop_succ, gen_step_body_osc sk m sched f hs fr ffuel st c0 hlast hposc]
    by_cases hend : st.high.time ≥ m.move_t
    · have hseek : seek_new_high_range sk f m.move_t st
          = .inl ⟨0, { sk with commanded_pos := c0 }, st.qa, true, sk.post_cb⟩ := by
        rw [seek_new_high_range, if_pos hend, hlast]
      rw [hseek]
    · have hseek : seek_new_high_range sk f m.move_t st
          = .inr (seek_new_high_range_body f m.move_t st) := by
        rw [seek_new_high_range, if_neg hend]
      rw [hseek]
      dsimp only
      obtain ⟨hlast', hd', hht', hpos', hposc', hqa', hcap⟩ := hexp st hlast hd
      have hbound' : m.move_t
          ≤ 2 ^ n * (seek_new_high_range_body f m.move_t st).seek_time_delta := by
        have hδ : (seek_new_high_range_body f m.move_t st).seek_time_delta
            = st.seek_time_delta + st.seek_time_delta := rfl
        have h2 : (2 : ℚ) ^ (n + 1) * st.seek_time_delta
            = 2 ^ n * (st.seek_time_delta + st.seek_time_delta) := by ring
        rw [hδ, ← h2]
        exact hbound
      have := ih (seek_new_high_range_body f m.move_t st) hlast' hposc' hd' hht' hbound'
      rw [this, hqa']

/-- C4: a move whose oracle oscillates around the starting `commanded_pos`
with amplitude strictly less than half a step over the whole move produces
zero steps and zero direction changes: the call succeeds having performed no
queue operation at all. -/
theorem gen_steps_small_oscillation_no_steps (sk : stepper_kinematics) (m : move)
    (sched : ℕ → ℤ) (ffuel : ℕ) (hmt : 0 < m.move_t)
    (hosc : ∀ t, 0 < t → t ≤ m.move_t →
      |sk.calc_position_cb m t - sk.commanded_pos| < (1 / 2) * sk.step_dist) :
    ∃ fuel : ℕ, ∃ r : GenResult,
      itersolve_gen_steps sk m sched fuel ffuel = some r ∧
      r.status = 0 ∧ r.qa.ticksRev = [] ∧ r.qa.dirsRev = [] ∧ r.qa.nOps = 0 := by
  have hhs : 0 < (1 / 2) * sk.step_dist :=
    lt_of_le_of_lt (abs_nonneg _) (hosc m.move_t hmt (le_refl _))
  obtain ⟨k, hk⟩ := exists_nat_gt (m.move_t * 10000)
  have h2k : (k : ℚ) ≤ 2 ^ k := by exact_mod_cast (Nat.lt_two_pow k).le
  have hbound : m.move_t ≤ 2 ^ k * (1 / 10000 : ℚ) := by linarith
  refine ⟨k + 2,
    ⟨0, { sk with commanded_pos := sk.commanded_pos }, ⟨[], [], 0⟩, true, sk.post_cb⟩,
    ?_, rfl, rfl, rfl, rfl⟩
  unfold itersolve_gen_steps
  dsimp only
  exact gen_steps_loop_osc sk m sched (sk.calc_position_cb m) ((1 / 2) * sk.step_dist)
    sk.sc.mcu_freq ffuel sk.commanded_pos hmt hosc k _ rfl
    (by dsimp only; rw [sub_self, abs_zero]; exact hhs) (by norm_num) hmt.le hbound

/-- Witness for `gen_steps_small_oscillation_no_steps` (constant oracle). -/
theorem gen_steps_small_oscillation_no_steps_witness :
    ∃ fuel : ℕ, ∃ r : GenResult,
      itersolve_gen_steps const_sk ⟨0, 1⟩ sched0 fuel 5 = some r ∧
      r.status = 0 ∧ r.qa.ticksRev = [] ∧ r.qa.dirsRev = [] ∧ r.qa.nOps = 0 :=
  gen_steps_small_oscillation_no_steps const_sk ⟨0, 1⟩ sched0 5 (by norm_num)
    (fun t _ _ => by norm_num [const_sk])

/-- C10: a move whose oracle stays strictly within half a step of the
starting `commanded_pos` at every time of `[0, move_t]` generates no steps:
the call returns 0, finalizes the session exactly once, and rewrites
`commanded_pos` with its unchanged initial value. -/
theorem gen_steps_bounded_drift_zero_steps (sk : stepper_kinematics) (m : move)
    (sched : ℕ → ℤ) (ffuel : ℕ) (hmt : 0 < m.move_t)
    (hosc : ∀ t, 0 ≤ t → t ≤ m.move_t →
      |sk.calc_position_cb m t - sk.commanded_pos| < (1 / 2) * sk.step_dist) :
    ∃ fuel : ℕ, ∃ r : GenResult,
      itersolve_gen_steps sk m sched fuel ffuel = some r ∧
      r.status = 0 ∧ r.qa.ticksRev = [] ∧ r.finished = true ∧
      r.sk.commanded_pos = sk.commanded_pos := by
  have hosc' : ∀ t, 0 < t → t ≤ m.move_t →
      |sk.calc_position_cb m t - sk.commanded_pos| < (1 / 2) * sk.step_dist :=
    fun t ht htm => hosc t ht.le htm
  have hhs : 0 < (1 / 2) * sk.step_dist :=
    lt_of_le_of_lt (abs_nonneg _) (hosc' m.move_t hmt (le_refl _))
  obtain ⟨k, hk⟩ := exists_nat_gt (m.move_t * 10000)
  have h2k : (k : ℚ) ≤ 2 ^ k := by exact_mod_cast (Nat.lt_two_pow k).le
  have hbound : m.move_t ≤ 2 ^ k * (1 / 10000 : ℚ) := by linarith
  refine ⟨k + 2,
    ⟨0, { sk with commanded_pos := sk.commanded_pos }, ⟨[], [], 0⟩, true, sk.post_cb⟩,
    ?_, rfl, rfl, rfl, rfl⟩
  unfold itersolve_gen_steps
  dsimp only
  exact gen_steps_loop_osc sk m sched (sk.calc_position_cb m) ((1 / 2) * sk.step_dist)
    sk.sc.mcu_freq ffuel sk.commanded_pos hmt hosc' k _ rfl
    (by dsimp only; rw [sub_self, abs_zero]; exact hhs) (by norm_num) hmt.le hbound

/-- Witness for `gen_steps_bounded_drift_zero_steps` (constant oracle). -/
theorem gen_steps_bounded_drift_zero_steps_witness :
    ∃ fuel : ℕ, ∃ r : GenResult,
      itersolve_gen_steps const_sk ⟨0, 1⟩ sched0 fuel 5 = some r ∧
      r.status = 0 ∧ r.qa.ticksRev = [] ∧ r.finished = true ∧
      r.sk.commanded_pos = const_sk.commanded_pos :=
  gen_steps_bounded_drift_zero_steps const_sk ⟨0, 1⟩ sched0 5 (by norm_num)
    (fun t _ _ => by norm_num [const_sk])
